import Mathlib

/-!
# Verification of the go-mockhttp mock-resolution engine

Shallow embedding of the core of `William9923/mockhttp` (a Go library that
intercepts outbound HTTP requests and serves mock responses) together with
proofs about the embedded functions.

Embedded components and their Go sources:

* `CleanPath`, `cleanLoop`, `backtrack` — `pathregex/path.go` (`CleanPath`,
  the httprouter-style URL path cleaner).
* `CompilePath`, `parseItems`, `matchSeq`, `MatchPath` — `pathregex/path.go`
  (`CompilePath`, `MatchPath`).  The Go code builds a regular-expression
  string; the embedding builds the same pattern as a small AST (`RItem`,
  `RTail`) whose matching semantics follow Go's leftmost-first, greedy
  regexp semantics for exactly the constructs the compiler emits.
* `MockResponse`, `isNil`, `isDefault`, `mergeMaps`, `collectAllParams` —
  `model.go`.
* `isRuleFulfilled`, `allRules`, `findFirstOpt`, `chooseResponse`,
  `validateTarget`, `findResponse` — the response-selection file
  (`validateTarget`/`chooseResponse`/`isRuleFulfilled`).
* `compileDefinition`, `LoadDefinition`, the three definition stores,
  `findMockDefinition`, `findMockResponse`, `resolveSelect`, `extractReqBody`,
  `generateResp` — the file-based resolver (`LoadDefinition`/`Resolve`).

External collaborators (the file system, YAML parsing, the `expr` expression
evaluator, the JSON/XML/form body decoders, `text/template` rendering and
`http.DetectContentType`) are modelled as oracle parameters: the embedding
receives their outcomes as values, mirroring only the control flow that the
repository's own code performs on those outcomes.  Go machine integers that
matter here (`StatusCode`, `Delay`) never overflow in the modelled paths and
are embedded as `Int`.  Go maps are embedded as their denotation
`String → Option String` (`Params`); a Go `nil` pointer / absent result is
`Option.none`; a Go `error` return is an explicit error value; a Go run-time
panic is `Option.none` at the outermost level of the affected function.

Recursive loops that consume a variable number of characters per iteration
are embedded with an explicit fuel argument (structural recursion, so that
the kernel can evaluate them); callers pass a fuel that is at least the
input length, which the lemmas show is sufficient.
-/

/-! ## Path canonicalisation: `pathregex.CleanPath`

`CleanPath` in `path.go` processes the byte string `p` with a read index `r`
and a write index `w` into a buffer whose logical content is always the
output written so far (`buf[:w]`, or `p[:w]` while the lazy buffer is still
untouched — the laziness is an allocation optimisation that does not change
the value).  The embedding carries that logical content `out` directly. -/

/-- One backtracking step of the `..` case of `CleanPath`, on the REVERSED
output buffer: starting from the last written character (`w--` in the Go
code), drop characters while the index is `> 1` and the character is not
`'/'`; the character at the stop position is also excluded from the result
(`buf[:w]`).  The index of the head equals the length of its tail. -/
def backRev : List Char → List Char
  | [] => []
  | c :: rest => if rest.length ≤ 1 then rest else if c = '/' then rest else backRev rest

/-- The `..` case of `CleanPath` (lines `w--; for w > 1 && buf[w] != '/' ...`):
only applies when more than the leading slash has been written. -/
def backtrack (out : List Char) : List Char :=
  if 1 < out.length then (backRev out.reverse).reverse else out

/-- The "real path element" default case of the `CleanPath` loop: append a
separating `'/'` when something beyond the leading slash was already written
(`if w > 1 { bufApp(&buf, p, w, '/') }`), then copy the element. -/
def appendSeg (out seg : List Char) : List Char :=
  (if 1 < out.length then out ++ ['/'] else out) ++ seg

/-- The main loop of `CleanPath` (`for r < n { switch ... }`).  `rest` is the
unread input `p[r:]`, `out` the logical output buffer, `tr` the `trailing`
flag.  Each iteration consumes at least one input character; the fuel is
decremented once per iteration, so any fuel `≥ rest.length` is enough. -/
def cleanLoop : Nat → List Char → List Char → Bool → List Char × Bool
  | 0, _, out, tr => (out, tr)
  | fuel + 1, rest, out, tr =>
    match rest with
    | [] => (out, tr)
    | c :: rest1 =>
      if c = '/' then
        -- empty path element
        cleanLoop fuel rest1 out tr
      else if c = '.' then
        match rest1 with
        | [] => (out, true)                    -- `.` at the very end: set trailing
        | c2 :: rest2 =>
          if c2 = '/' then
            cleanLoop fuel rest2 out tr        -- `.` element
          else if c2 = '.' ∧ (rest2 = [] ∨ rest2.head? = some '/') then
            -- `..` element: r += 3, backtrack to the previous `/`
            cleanLoop fuel rest2.tail (backtrack out) tr
          else
            cleanLoop fuel (rest1.dropWhile (· ≠ '/'))
              (appendSeg out ('.' :: rest1.takeWhile (· ≠ '/'))) tr
      else
        cleanLoop fuel (rest1.dropWhile (· ≠ '/'))
          (appendSeg out (c :: rest1.takeWhile (· ≠ '/'))) tr

/-- `pathregex.CleanPath`: the URL version of `path.Clean`.  Empty input maps
to `"/"`; a missing leading slash is added (`buf[0] = '/'`, reading from
`r = 0`); `trailing` records whether the input had a trailing slash, which is
re-appended at the end when anything besides the root was written. -/
def CleanPath (p : String) : String :=
  match p.data with
  | [] => "/"
  | c :: rest0 =>
    let chars := c :: rest0
    let start := if c = '/' then rest0 else chars
    let trailing := decide (1 < chars.length) && (chars.getLast? == some '/')
    let res := cleanLoop chars.length start ['/'] trailing
    String.mk (if res.2 && decide (1 < res.1.length) then res.1 ++ ['/'] else res.1)

/-! ## Path pattern compiler: `pathregex.CompilePath` / `MatchPath`

`CompilePath(path, caseSensitive, end)` in `path.go` produces a regexp
string.  Every call in the repository passes `caseSensitive = true` and
`end = true` (both `LoadDefinition` and `MatchPath`), so the embedding fixes
those flags.  The produced pattern is always

  `^` (escaped literal chars, `/` escaped, with each `:name` replaced by the
  group `([^/]+)`)  followed by one of the three tails
    - `(.*)$`              when the path is exactly `*` or `/*`,
    - `(?:\/(.+)|\/*)$`    when the path ends in `*` otherwise,
    - `\/*$`               when the path does not end in `*` (`end` branch).

`regexp.QuoteMeta` makes every literal character match itself, so the
pattern is embedded as a list of items (literal character or parameter
group) plus a tail marker, with Go's leftmost-first greedy matching
semantics implemented for exactly these constructs. -/

/-- One item of the middle of a compiled path pattern. -/
inductive RItem where
  | lit (c : Char)
  | param
deriving DecidableEq, Repr

/-- The tail appended after the middle of a compiled path pattern. -/
inductive RTail where
  | allCap      -- `(.*)$`
  | wildTail    -- `(?:\/(.+)|\/*)$`
  | slashesEnd  -- `\/*$`
deriving DecidableEq, Repr

/-- The compiled matcher: regex `^ items tail`. -/
structure CompiledPath where
  items : List RItem
  tail : RTail
deriving DecidableEq, Repr

/-- Go regexp `.` matches any character except `'\n'` (no `s` flag). -/
def noLF (s : List Char) : Bool := s.all (· ≠ '\n')

/-- Match the tail of a compiled pattern against the remaining input,
returning the list of captures made by the tail's groups (an unmatched
group yields `""`, as `FindStringSubmatch` does). -/
def matchTail : RTail → List Char → Option (List (List Char))
  | .slashesEnd, s => if s.all (· = '/') then some [] else none
  | .allCap, s => if noLF s then some [s] else none
  | .wildTail, s =>
    match s with
    | '/' :: rest =>
      -- leftmost-first alternation: try `\/(.+)` before `\/*`
      if rest ≠ [] ∧ noLF rest then some [rest]
      else if ('/' :: rest).all (· = '/') then some [[]] else none
    | s' => if s'.all (· = '/') then some [[]] else none

/-- Greedy backtracking for one `([^/]+)` group: try capture lengths from
`k` (the full run of non-`'/'` characters) down to 1, first success wins —
Go's preference for the longest capture compatible with the rest. -/
def paramTry (cont : List Char → Option (List (List Char))) (s : List Char) :
    Nat → Option (List (List Char))
  | 0 => none
  | k + 1 =>
    match cont (s.drop (k + 1)) with
    | some caps => some (s.take (k + 1) :: caps)
    | none => paramTry cont s k

/-- Match the middle items then the tail against the input, returning all
group captures in order (parameter groups first, then the tail's group). -/
def matchSeq (t : RTail) : List RItem → List Char → Option (List (List Char))
  | [], s => matchTail t s
  | .lit c :: items, s =>
    match s with
    | [] => none
    | c' :: s' => if c' = c then matchSeq t items s' else none
  | .param :: items, s =>
    paramTry (fun s' => matchSeq t items s') s ((s.takeWhile (· ≠ '/')).length)

/-- Go `\w`: ASCII word character. -/
def isWordChar (c : Char) : Bool := c.isAlphanum || c = '_'

/-- The scan of `CompilePath` that finds every `:(\w+)` token, records the
parameter names in declaration order, and replaces each token by a
`([^/]+)` group; all remaining characters are literals (after `QuoteMeta`
every metacharacter matches itself, so the matched language keeps the plain
characters).  A `:` not followed by a word character stays a literal.
Fuel-structured; any fuel `≥` the input length suffices. -/
def parseItems : Nat → List Char → List RItem × List (List Char)
  | 0, _ => ([], [])
  | _ + 1, [] => ([], [])
  | fuel + 1, ':' :: rest =>
    let name := rest.takeWhile isWordChar
    if name.isEmpty then
      let r := parseItems fuel rest
      (RItem.lit ':' :: r.1, r.2)
    else
      let r := parseItems fuel (rest.drop name.length)
      (RItem.param :: r.1, name :: r.2)
  | fuel + 1, c :: rest =>
    let r := parseItems fuel rest
    (RItem.lit c :: r.1, r.2)

/-- `regexp.MustCompile(`\/*\*?$`).ReplaceAllString(path, "")`: the leftmost
match of the anchored pattern removes the maximal trailing run consisting of
slashes followed by at most one `*`. -/
def stripTrailing (l : List Char) : List Char :=
  ((if l.getLast? = some '*' then l.dropLast else l).reverse.dropWhile (· = '/')).reverse

/-- `regexp.MustCompile(`^\/*`).ReplaceAllString(s, "/")`: replace the
leading run of slashes (possibly empty) by a single slash. -/
def addLeading (l : List Char) : List Char := '/' :: l.dropWhile (· = '/')

/-- `pathregex.CompilePath` with the repository's fixed flags
`caseSensitive = true, end = true`: compile a path template into the matcher
AST plus the ordered parameter names (`"*"` appended when the template ends
in `*`). -/
def CompilePath (path : String) : CompiledPath × List String :=
  let src := addLeading (stripTrailing path.data)
  let r := parseItems src.length src
  let names := r.2.map (fun n => String.mk n)
  -- `strings.HasSuffix(path, "*")`
  if path.data.getLast? = some '*' then
    if path = "*" ∨ path = "/*" then (⟨r.1, RTail.allCap⟩, names ++ ["*"])
    else (⟨r.1, RTail.wildTail⟩, names ++ ["*"])
  else (⟨r.1, RTail.slashesEnd⟩, names)

/-- `pathregex.MatchPath`: clean and compile the pattern, run the matcher on
the path, and on success zip the declared parameter names with the captured
values (the Go map is built by inserting the pairs in exactly this order).
`(false, none)` corresponds to Go's `(false, nil)`. -/
def MatchPath (path pattern : String) : Bool × Option (List (String × String)) :=
  let c := CompilePath (CleanPath pattern)
  match matchSeq c.1.tail c.1.items path.data with
  | none => (false, none)
  | some caps =>
    if c.2.isEmpty then (true, some [])
    else if c.2.length ≠ caps.length then (false, none)
    else (true, some (c.2.zip (caps.map String.mk)))

/-- Modelled from the spec: `pathregex.ExtractPathParam` is called by the
resolver's `findMockResponse` but its definition is not among the sources
(the `path.go` present instead returns the captures from `MatchPath`).
Per spec §4.2 the matcher extracts "captured parameter values keyed by their
declared names", i.e. exactly the capture map `MatchPath` produces. -/
def ExtractPathParam (path pattern : String) : List (String × String) :=
  ((MatchPath path pattern).2).getD []

/-! ## Data model: `model.go` -/

/-- Denotation of a Go `map[string]string` (`type params map[string]string`).
Iteration order of a Go map is irrelevant to every modelled computation. -/
def Params : Type := String → Option String

/-- `mockResponse` (`model.go`): one candidate reply of a definition.
`ResponseHeaders` (`map[string]string`) is carried as the list of its
entries.  The Go zero value of the struct is `zeroResponse` below. -/
structure MockResponse where
  responseHeaders : List (String × String)
  rules : List String
  delay : Int
  statusCode : Int
  enableTemplate : Bool
  body : String
deriving DecidableEq, Repr

/-- The zero value of Go's `mockResponse` struct (what `findFirst` returns
when nothing matches: `var empty T`). -/
def zeroResponse : MockResponse := ⟨[], [], 0, 0, false, ""⟩

/-- `mockResponse.isNil` (`model.go` lines 26-28). -/
def MockResponse.isNil (r : MockResponse) : Bool :=
  r.statusCode == 0 && r.body == "" && r.rules.isEmpty

/-- `mockResponse.isDefault` (`model.go` lines 30-32). -/
def MockResponse.isDefault (r : MockResponse) : Bool := r.rules.isEmpty

/-- `incomingRequest` (`model.go`): the normalized per-call view of a
request.  The parsed body (`map[string]interface{}`) and raw body feed only
the external expression evaluator, which is abstracted by an oracle, so the
body is not carried further than its extraction outcome. -/
structure IncomingRequest where
  host : String
  method : String
  endpoint : String
  headers : Params
  cookies : Params
  queryParams : Params
  routeParams : Params
  rawBody : String

/-- `mergeMaps` (`model.go` lines 62-70): fold the maps left to right,
each map's entries overwriting the accumulated ones.  On the map
denotation, writing all entries of `p` over `merged` yields the function
that prefers `p`. -/
def mergeTwoParams (merged p : Params) : Params :=
  fun k => match p k with
  | some v => some v
  | none => merged k

/-- `mergeMaps` over a list of maps, starting from the empty map. -/
def mergeMaps (data : List Params) : Params :=
  data.foldl mergeTwoParams (fun _ => none)

/-- `incomingRequest.collectAllParams` (`model.go` lines 58-60):
merge query params, then cookies, then headers, then route params. -/
def collectAllParams (req : IncomingRequest) : Params :=
  mergeMaps [req.queryParams, req.cookies, req.headers, req.routeParams]

/-! ## Rule evaluation and response selection -/

/-- Outcome of `expr.Eval(rule, env)` — the external `expr-lang` evaluator
applied to the rule string and the request context, abstracted: it either
returns an error, or a boolean value, or a value of any non-boolean type. -/
inductive ExprOutcome where
  | evalError
  | boolVal (b : Bool)
  | nonBoolVal
deriving DecidableEq, Repr

/-- `isRuleFulfilled`: on an evaluation error it returns `false`; otherwise
it executes the UNCHECKED type assertion `evalRes.(bool)`, which returns the
boolean when the result is one and PANICS (modelled `none`) when it is not. -/
def isRuleFulfilled (outcome : ExprOutcome) : Option Bool :=
  match outcome with
  | .evalError => some false
  | .boolVal b => some b
  | .nonBoolVal => none

/-- `all(data.Rules, ...)` inside `chooseResponse`: conjunction over the
rules in order, short-circuiting at the first unfulfilled rule; a panic in
`isRuleFulfilled` propagates (`none`).  `evalOf` gives the evaluator's
outcome for each rule string under the fixed request context. -/
def allRules (evalOf : String → ExprOutcome) : List String → Option Bool
  | [] => some true
  | r :: rest =>
    match isRuleFulfilled (evalOf r) with
    | none => none
    | some false => some false
    | some true => allRules evalOf rest

/-- `findFirst` (collection utility) as used by `chooseResponse`: return the
first element satisfying the predicate, or the zero value when none does
(`chooseResponse` discards the accompanying "no match found" error).  The
predicate may panic (`none`), which propagates. -/
def findFirstOpt (p : MockResponse → Option Bool) : List MockResponse → Option MockResponse
  | [] => some zeroResponse
  | x :: rest =>
    match p x with
    | none => none
    | some true => some x
    | some false => findFirstOpt p rest

/-- `chooseResponse` (response-selection file, lines 55-80): first scan for a
non-default response whose rules are all fulfilled; if the scan produced a
non-nil response return it; otherwise fall back to the first default
response, returned only when non-nil; else no response (`nil`).  The outer
`Option` is a rule-evaluation panic propagating out of the scan. -/
def chooseResponse (evalOf : String → ExprOutcome) (responses : List MockResponse) :
    Option (Option MockResponse) :=
  match findFirstOpt
      (fun data => if data.isDefault then some false else allRules evalOf data.rules)
      responses with
  | none => none
  | some correctResponse =>
    if !correctResponse.isNil then some (some correctResponse)
    else
      match findFirstOpt (fun data => some data.isDefault) responses with
      | none => none
      | some defaultResponse =>
        if !defaultResponse.isNil then some (some defaultResponse) else some none

/-! ## Request validation and body extraction -/

/-- Typed errors of the engine (`error.go` plus propagated external
errors; `external` stands for an `error` value produced by a collaborator —
file system, YAML, body reading or decoding — and returned unchanged). -/
inductive ResolveError where
  | definitionLoaded        -- ErrDefinitionLoaded
  | noMockResponse          -- ErrNoMockResponse
  | unsupportedContentType  -- ErrUnsupportedContentType
  | noContentType           -- ErrNoContentType
  | common                  -- ErrCommon
  | external
deriving DecidableEq, Repr

def parsedXMLBodyMimeTypes : List String :=
  ["application/xml", "application/soap+xml", "text/xml"]

def parsedFormBodyMimeTypes : List String :=
  ["application/x-www-form-urlencoded", "multipart/form-data"]

def parsedJSONBodyMimeTypes : List String := ["application/json"]

/-- `merge(parsedXMLBodyMimeTypes, parsedJSONBodyMimeTypes, parsedFormBodyMimeTypes)`. -/
def parsedBodyMimeTypes : List String :=
  parsedXMLBodyMimeTypes ++ parsedJSONBodyMimeTypes ++ parsedFormBodyMimeTypes

/-- `validateTarget` (response-selection file, lines 26-45): requests whose
method is GET, HEAD or DELETE are not validated at all; for every other
method the `Content-Type` header must be present and belong to one of the
registered MIME groups. -/
def validateTarget (method : String) (headers : Params) : Option ResolveError :=
  if ["GET", "HEAD", "DELETE"].any (· == method) then none
  else
    match headers "Content-Type" with
    | none => some .noContentType
    | some contentType =>
      if parsedBodyMimeTypes.any (· == contentType) then none
      else some .unsupportedContentType

/-- `extractReqBody` (resolver, lines 346-374).  The external decoders'
outcomes are oracle parameters: `formOutcome` for `extractFormReqBody`,
`rawOutcome` for the second `extractRawBody` read, `jsonOutcome` /
`xmlOutcome` for `parser.ParseJSON` / `parser.ParseXML`.  A missing
`Content-Type` or an unregistered one yields `ErrUnsupportedContentType`. -/
def extractReqBody (headers : Params) (rawOutcome : Except Unit String)
    (formOutcome jsonOutcome xmlOutcome : Except Unit Unit) : Except ResolveError Unit :=
  match headers "Content-Type" with
  | none => .error .unsupportedContentType
  | some contentType =>
    if parsedFormBodyMimeTypes.any (· == contentType) then
      match formOutcome with
      | .error _ => .error .external
      | .ok _ => .ok ()
    else
      match rawOutcome with
      | .error _ => .error .external
      | .ok _ =>
        if parsedJSONBodyMimeTypes.any (· == contentType) then
          match jsonOutcome with
          | .error _ => .error .external
          | .ok _ => .ok ()
        else if parsedXMLBodyMimeTypes.any (· == contentType) then
          match xmlOutcome with
          | .error _ => .error .external
          | .ok _ => .ok ()
        else .error .unsupportedContentType

/-! ## Definitions, loading and the resolver -/

/-- The YAML-visible fields of `fileBasedMockDefinition` — what
`yaml.Unmarshal` produces before the deferred fields are compiled. -/
structure RawDefinition where
  host : String
  path : String
  method : String
  desc : String
  responses : List MockResponse
deriving DecidableEq, Repr

/-- `fileBasedMockDefinition` with its deferred fields populated. -/
structure MockDefinition where
  host : String
  path : String
  method : String
  desc : String
  responses : List MockResponse
  compiledPath : CompiledPath
  params : List String
  containParams : Bool
  containsWildcard : Bool
deriving DecidableEq, Repr

/-- `findWildcard` (resolver, lines 286-293). -/
def findWildcard (params : List String) : Bool := params.any (· = "*")

/-- The deferred-field compilation step of `LoadDefinition`
(resolver, lines 101-105). -/
def compileDefinition (raw : RawDefinition) : MockDefinition :=
  let c := CompilePath raw.path
  { host := raw.host, path := raw.path, method := raw.method, desc := raw.desc,
    responses := raw.responses, compiledPath := c.1, params := c.2,
    containParams := decide (0 < c.2.length),
    containsWildcard := findWildcard c.2 }

/-- The mutable state of `fileBasedResolver`: the accumulated definitions
and the atomic `isLoaded` flag. -/
structure ResolverState where
  definitions : List MockDefinition
  isLoaded : Bool
deriving DecidableEq, Repr

/-- The per-file body of `LoadDefinition`'s loop: each list entry models the
combined outcome of reading one regular file and YAML-unmarshalling it
(directories are skipped by the loop before this point).  A failure aborts
the loop, leaving the definitions appended so far and the flag unset. -/
def loadGo : List (Except Unit RawDefinition) → List MockDefinition →
    Option ResolveError × ResolverState
  | [], defs => (none, ⟨defs, true⟩)
  | .error _ :: _, defs => (some .external, ⟨defs, false⟩)
  | .ok raw :: rest, defs => loadGo rest (defs ++ [compileDefinition raw])

/-- `fileBasedResolver.LoadDefinition` (resolver, lines 75-112): refuse with
`ErrDefinitionLoaded` when the flag is already set, otherwise compile and
append every file's definition and set the flag on full success. -/
def LoadDefinition (files : List (Except Unit RawDefinition)) (st : ResolverState) :
    Option ResolveError × ResolverState :=
  if st.isLoaded then (some .definitionLoaded, st)
  else loadGo files st.definitions

/-- `getAllExactPathDefinitions` (resolver, lines 262-268). -/
def getAllExactPathDefinitions (defs : List MockDefinition) (host method : String) :
    List MockDefinition :=
  defs.filter (fun d =>
    d.method == method && d.host == host && !d.containParams && !d.containsWildcard)

/-- `getAllContainPathParamDefinitions` (resolver, lines 246-252).  As in
the source, the host argument is NOT used in the filter (spec §9 notes this
asymmetry). -/
def getAllContainPathParamDefinitions (defs : List MockDefinition)
    (_host method : String) : List MockDefinition :=
  defs.filter (fun d => d.method == method && d.containParams && !d.containsWildcard)

/-- `getAllHaveWildcardDefinitions` (resolver, lines 278-284). -/
def getAllHaveWildcardDefinitions (defs : List MockDefinition) (host method : String) :
    List MockDefinition :=
  defs.filter (fun d =>
    d.method == method && d.host == host && d.containParams && d.containsWildcard)

/-- The boolean use of `pathregex.MatchPath(request.Endpoint, definition.Path)`
in `findMockResponse`. -/
def pathMatches (endpoint : String) (d : MockDefinition) : Bool :=
  (MatchPath endpoint d.path).1

/-- The definition-selection part of `findMockResponse` (resolver, lines
177-193): walk the three stores in priority order — exact, path-parameter,
wildcard — and inside each store take the first definition whose path
matches; the loop returns at the first match. -/
def findMockDefinition (defs : List MockDefinition) (host method endpoint : String) :
    Option MockDefinition :=
  match (getAllExactPathDefinitions defs host method).find? (pathMatches endpoint) with
  | some d => some d
  | none =>
    match (getAllContainPathParamDefinitions defs host method).find? (pathMatches endpoint) with
    | some d => some d
    | none => (getAllHaveWildcardDefinitions defs host method).find? (pathMatches endpoint)

/-- `findResponse` (response-selection file, lines 47-53): validate the
request, then choose among the definition's responses.  The outer `Option`
is a rule-evaluation panic. -/
def findResponse (evalOf : String → ExprOutcome) (method : String) (headers : Params)
    (d : MockDefinition) : Option (Except ResolveError (Option MockResponse)) :=
  match validateTarget method headers with
  | some e => some (.error e)
  | none => (chooseResponse evalOf d.responses).map Except.ok

/-- `findMockResponse` (resolver, lines 177-193) after the first matching
definition is identified: no match at all yields `ErrNoMockResponse`. -/
def findMockResponse (evalOf : String → ExprOutcome) (defs : List MockDefinition)
    (host method endpoint : String) (headers : Params) :
    Option (Except ResolveError (Option MockResponse)) :=
  match findMockDefinition defs host method endpoint with
  | none => some (.error .noMockResponse)
  | some d => findResponse evalOf method headers d

/-- The already-extracted view of the inbound `*http.Request` that `Resolve`
consumes: host, method, the URL's escaped path, the collapsed header /
cookie / query maps (`extractHeader` / `extractCookies` /
`extractQueryParam` keep the last value per name), and whether `req.Body`
is non-nil. -/
structure HttpRequest where
  host : String
  method : String
  escapedPath : String
  headers : Params
  cookies : Params
  queryParams : Params
  hasBody : Bool

/-- `fileBasedResolver.Resolve` (resolver, lines 130-175) up to and
including response selection (the subsequent `generateResp` synthesis step
is modelled separately): extract the body when one is present (propagating
read/decode errors), clean the endpoint, find the mock response, and map a
`nil` response to `ErrNoMockResponse`.  The outer `Option` is a
rule-evaluation panic aborting the call. -/
def resolveSelect (evalOf : String → ExprOutcome) (rawOutcome : Except Unit String)
    (formOutcome jsonOutcome xmlOutcome : Except Unit Unit)
    (defs : List MockDefinition) (req : HttpRequest) :
    Option (Except ResolveError MockResponse) :=
  let bodyStep : Option ResolveError :=
    if req.hasBody then
      match rawOutcome with
      | .error _ => some .external
      | .ok _ =>
        match extractReqBody req.headers rawOutcome formOutcome jsonOutcome xmlOutcome with
        | .error e => some e
        | .ok _ => none
    else none
  match bodyStep with
  | some e => some (.error e)
  | none =>
    match findMockResponse evalOf defs req.host req.method
        (CleanPath req.escapedPath) req.headers with
    | none => none
    | some (.error e) => some (.error e)
    | some (.ok none) => some (.error .noMockResponse)
    | some (.ok (some resp)) => some (.ok resp)

/-! ## Response synthesis: `generateResp` -/

/-- The synthesized `http.Response` data: header entries, status code and
body string. -/
structure GeneratedResponse where
  headers : List (String × String)
  statusCode : Int
  body : String
deriving DecidableEq, Repr

/-- `fileBasedResolver.generateResp` (resolver, lines 200-233).  When the
response enables templating, the body template is first parsed with
`template.Must(r.template.Parse(body))` — `Must` PANICS when `Parse` returns
an error (modelled `none`, like every Go panic in this file) — and the
parsed template is then executed with `request.collectAllParams()`; an
`Execute` error is mapped to `ErrCommon` and the rendered buffer replaces
the body.  `parseOutcome` and `executeOutcome` are the outcomes of the
external `html/template` Parse and Execute steps for a given body template;
`sniff` is `http.DetectContentType`.  A declared `Content-Type` header
suppresses sniffing. -/
def generateResp (parseOutcome : String → Except Unit Unit)
    (executeOutcome : String → Params → Except Unit String)
    (sniff : String → String) (request : IncomingRequest) (response : MockResponse) :
    Option (Except ResolveError GeneratedResponse) :=
  let bodyE : Option (Except ResolveError String) :=
    if response.enableTemplate then
      match parseOutcome response.body with
      | .error _ => none    -- template.Must panics on a Parse error
      | .ok _ =>
        match executeOutcome response.body (collectAllParams request) with
        | .error _ => some (.error .common)
        | .ok rendered => some (.ok rendered)
    else some (.ok response.body)
  match bodyE with
  | none => none
  | some (.error e) => some (.error e)
  | some (.ok body) =>
    let isContentTypeSet := response.responseHeaders.any (fun kv => kv.1 == "Content-Type")
    let actualHeaders :=
      if isContentTypeSet then response.responseHeaders
      else response.responseHeaders ++ [("Content-Type", sniff body)]
    some (.ok ⟨actualHeaders, response.statusCode, body⟩)

/-! ## Claim C8: named path parameters -/

/-- C8: compiling `/info/:user/project/:project` and matching
`/info/gordon/project/go` succeeds and yields exactly the route parameters
`user ↦ "gordon"`, `project ↦ "go"`, with the parameter names recorded in
declaration order. -/
theorem matchPath_info_user_project :
    MatchPath "/info/gordon/project/go" "/info/:user/project/:project" =
      (true, some [("user", "gordon"), ("project", "go")]) ∧
    (CompilePath "/info/:user/project/:project").2 = ["user", "project"] := by
  constructor <;> rfl

/-! ## Claim C3: wildcard templates -/

/-- C3 counterexample: the template `/src/*filepath` does NOT match the path
`/src/some/file.png` — `*filepath` is not wildcard syntax for this compiler
(only a trailing bare `*` is); the `*` is escaped by `QuoteMeta` and matched
literally, and no parameter at all is declared for this template. -/
theorem matchPath_starName_no_wildcard :
    MatchPath "/src/some/file.png" "/src/*filepath" = (false, none) ∧
    (CompilePath "/src/*filepath").2 = [] := by
  constructor <;> rfl

/-- C3 amended: `/src/*filepath` is treated as a literal path — it matches
exactly itself (with no captures); the wildcard convention of this compiler
is a trailing bare `*`, whose capture is stored under the key `"*"`:
`/src/*` matches `/src/some/file.png` capturing `some/file.png` (the
remainder without its leading separator) under `"*"`. -/
theorem matchPath_wildcard_convention :
    MatchPath "/src/*filepath" "/src/*filepath" = (true, some []) ∧
    MatchPath "/src/some/file.png" "/src/*" =
      (true, some [("*", "some/file.png")]) ∧
    (CompilePath "/src/*").2 = ["*"] := by
  refine ⟨?_, ?_, ?_⟩ <;> rfl

/-! ## Claim C2: rule evaluation errors -/

/-- C2 (code bug): an evaluator error is downgraded to `false` as the spec
says, but a successfully evaluated NON-BOOLEAN result makes the unchecked
type assertion `evalRes.(bool)` panic (modelled `none`), aborting the whole
resolve call — here shown end-to-end: a matched GET definition whose only
response carries a rule evaluating to a non-boolean makes `Resolve` panic
instead of skipping the response. -/
theorem isRuleFulfilled_nonbool_panics :
    isRuleFulfilled ExprOutcome.evalError = some false ∧
    isRuleFulfilled (ExprOutcome.boolVal false) = some false ∧
    isRuleFulfilled ExprOutcome.nonBoolVal = none ∧
    resolveSelect (fun _ => ExprOutcome.nonBoolVal) (.ok "") (.ok ()) (.ok ()) (.ok ())
      [compileDefinition ⟨"h", "/a", "GET", "", [⟨[], ["1 + 1"], 0, 200, false, "y"⟩]⟩]
      ⟨"h", "GET", "/a", (fun _ => none), (fun _ => none), (fun _ => none), false⟩ =
      none := by
  refine ⟨rfl, rfl, rfl, ?_⟩
  rfl

/-! ## Claim C9: merged template parameters -/

/-- C9: with template rendering enabled, `generateResp` hands the template
exactly `collectAllParams`, the merge of query params, then cookies, then
headers, then route params — so on any key the value used is the route
parameter, else the header, else the cookie, else the query parameter.
(The rendering pipeline itself: a body-template Parse failure panics
through `template.Must` — modelled `none` — and an Execute failure yields
`ErrCommon`.) -/
theorem collectAllParams_priority (parseOutcome : String → Except Unit Unit)
    (executeOutcome : String → Params → Except Unit String)
    (sniff : String → String) (req : IncomingRequest)
    (hdrs : List (String × String)) (rules : List String) (delay statusCode : Int)
    (body : String) :
    (∀ k, collectAllParams req k =
      match req.routeParams k with
      | some v => some v
      | none =>
        match req.headers k with
        | some v => some v
        | none =>
          match req.cookies k with
          | some v => some v
          | none => req.queryParams k) ∧
    generateResp parseOutcome executeOutcome sniff req
        ⟨hdrs, rules, delay, statusCode, true, body⟩ =
      (match parseOutcome body with
       | .error _ => none
       | .ok _ =>
         match executeOutcome body (collectAllParams req) with
         | .error _ => some (.error .common)
         | .ok rendered =>
           some (.ok ⟨(if hdrs.any (fun kv => kv.1 == "Content-Type") then hdrs
                 else hdrs ++ [("Content-Type", sniff rendered)]),
                statusCode, rendered⟩)) := by
  constructor
  · intro k
    cases hq : req.queryParams k <;> cases hc : req.cookies k <;>
      cases hh : req.headers k <;> cases hr : req.routeParams k <;>
      simp [collectAllParams, mergeMaps, mergeTwoParams, hq, hc, hh, hr]
  · cases hp : parseOutcome body with
    | error e => simp [generateResp, hp]
    | ok u =>
      cases he : executeOutcome body (collectAllParams req) <;>
        simp [generateResp, hp, he]

/-! ## Claim C5: loading twice -/

/-- A fully successful `loadGo` run always sets the `isLoaded` flag. -/
theorem loadGo_success_isLoaded :
    ∀ (files : List (Except Unit RawDefinition)) (defs : List MockDefinition)
      (st' : ResolverState), loadGo files defs = (none, st') → st'.isLoaded = true := by
  intro files
  induction files with
  | nil => intro defs st' h; cases h; rfl
  | cons f rest ih =>
    intro defs st' h
    cases f with
    | error e => cases h
    | ok raw => exact ih _ _ h

/-- C5: after any successful load, a second `LoadDefinition` call fails with
`ErrDefinitionLoaded` and returns the state unchanged — in particular the
stored definition list equals its contents after the first successful
load. -/
theorem loadDefinition_twice (files₁ files₂ : List (Except Unit RawDefinition))
    (st st' : ResolverState) (hsucc : LoadDefinition files₁ st = (none, st')) :
    LoadDefinition files₂ st' = (some ResolveError.definitionLoaded, st') := by
  unfold LoadDefinition at hsucc ⊢
  by_cases h : st.isLoaded
  · rw [if_pos h] at hsucc; cases hsucc
  · rw [if_neg h] at hsucc
    rw [if_pos (loadGo_success_isLoaded files₁ st.definitions st' hsucc)]

/-- Witness for C5 at a concrete resolver: one definition file loaded into a
fresh resolver, then a second load attempt. -/
theorem loadDefinition_twice_witness :
    LoadDefinition [Except.ok ⟨"h", "/a", "GET", "", []⟩]
      ⟨[compileDefinition ⟨"h", "/a", "GET", "", []⟩], true⟩ =
      (some ResolveError.definitionLoaded,
        ⟨[compileDefinition ⟨"h", "/a", "GET", "", []⟩], true⟩) :=
  loadDefinition_twice [Except.ok ⟨"h", "/a", "GET", "", []⟩]
    [Except.ok ⟨"h", "/a", "GET", "", []⟩] ⟨[], false⟩
    ⟨[compileDefinition ⟨"h", "/a", "GET", "", []⟩], true⟩ rfl

/-! ## Claim C1: tier priority -/

/-- Membership in the exact-path store implies the store's filter. -/
theorem mem_exact_store {defs : List MockDefinition} {host method : String}
    {d : MockDefinition} (h : d ∈ getAllExactPathDefinitions defs host method) :
    d ∈ defs ∧ d.method = method ∧ d.host = host ∧
      d.containParams = false ∧ d.containsWildcard = false := by
  have hmem := List.mem_of_mem_filter h
  have hp := List.of_mem_filter h
  simp only [Bool.and_eq_true, Bool.not_eq_true', beq_iff_eq] at hp
  exact ⟨hmem, hp.1.1.1, hp.1.1.2, hp.1.2, hp.2⟩

/-- Membership in the path-parameter store implies the store's filter
(note: no host condition, as in the source). -/
theorem mem_param_store {defs : List MockDefinition} {host method : String}
    {d : MockDefinition} (h : d ∈ getAllContainPathParamDefinitions defs host method) :
    d ∈ defs ∧ d.method = method ∧ d.containParams = true ∧ d.containsWildcard = false := by
  have hmem := List.mem_of_mem_filter h
  have hp := List.of_mem_filter h
  simp only [Bool.and_eq_true, Bool.not_eq_true', beq_iff_eq] at hp
  exact ⟨hmem, hp.1.1, hp.1.2, hp.2⟩

/-- Membership in the wildcard store implies the store's filter. -/
theorem mem_wild_store {defs : List MockDefinition} {host method : String}
    {d : MockDefinition} (h : d ∈ getAllHaveWildcardDefinitions defs host method) :
    d ∈ defs ∧ d.method = method ∧ d.host = host ∧
      d.containParams = true ∧ d.containsWildcard = true := by
  have hmem := List.mem_of_mem_filter h
  have hp := List.of_mem_filter h
  simp only [Bool.and_eq_true, beq_iff_eq] at hp
  exact ⟨hmem, hp.1.1.1, hp.1.1.2, hp.1.2, hp.2⟩

/-- C1: whenever the loaded definitions contain — in any order — an
exact-path definition, a path-parameter definition and a wildcard
definition that all apply to the inbound `(host, method, endpoint)`,
resolution (i) never selects a wildcard-tier definition (the parameterized
one is preferred), and (ii) selects an exact-tier definition whenever any
matching exact one is present. -/
theorem findMockDefinition_tier_priority
    (defs : List MockDefinition) (host method endpoint : String) (dP dW : MockDefinition)
    (hPin : dP ∈ defs) (hPmeth : dP.method = method) (hPpar : dP.containParams = true)
    (hPwild : dP.containsWildcard = false) (hPmatch : pathMatches endpoint dP = true)
    (hWin : dW ∈ defs) (hWmeth : dW.method = method) (hWhost : dW.host = host)
    (hWpar : dW.containParams = true) (hWwild : dW.containsWildcard = true)
    (hWmatch : pathMatches endpoint dW = true) :
    (∃ d, findMockDefinition defs host method endpoint = some d ∧
      d.containsWildcard = false ∧ pathMatches endpoint d = true) ∧
    (∀ dE, dE ∈ defs → dE.method = method → dE.host = host →
      dE.containParams = false → dE.containsWildcard = false →
      pathMatches endpoint dE = true →
      ∃ d, findMockDefinition defs host method endpoint = some d ∧
        d.containParams = false ∧ d.containsWildcard = false ∧
        pathMatches endpoint d = true) := by
  constructor
  · unfold findMockDefinition
    cases hE : (getAllExactPathDefinitions defs host method).find? (pathMatches endpoint) with
    | some d =>
      refine ⟨d, rfl, ?_, List.find?_some hE⟩
      exact (mem_exact_store (List.mem_of_find?_eq_some hE)).2.2.2.2
    | none =>
      have hPmem : dP ∈ getAllContainPathParamDefinitions defs host method := by
        refine List.mem_filter.2 ⟨hPin, ?_⟩
        simp [hPmeth, hPpar, hPwild]
      have hsome : ((getAllContainPathParamDefinitions defs host method).find?
          (pathMatches endpoint)).isSome :=
        List.find?_isSome.mpr ⟨dP, hPmem, hPmatch⟩
      obtain ⟨d, hd⟩ := Option.isSome_iff_exists.mp hsome
      refine ⟨d, by rw [hd], ?_, List.find?_some hd⟩
      exact (mem_param_store (List.mem_of_find?_eq_some hd)).2.2.2
  · intro dE hEin hEmeth hEhost hEpar hEwild hEmatch
    have hEmem : dE ∈ getAllExactPathDefinitions defs host method := by
      refine List.mem_filter.2 ⟨hEin, ?_⟩
      simp [hEmeth, hEhost, hEpar, hEwild]
    have hsome : ((getAllExactPathDefinitions defs host method).find?
        (pathMatches endpoint)).isSome :=
      List.find?_isSome.mpr ⟨dE, hEmem, hEmatch⟩
    obtain ⟨d, hd⟩ := Option.isSome_iff_exists.mp hsome
    have hprops := mem_exact_store (List.mem_of_find?_eq_some hd)
    refine ⟨d, ?_, hprops.2.2.2.1, hprops.2.2.2.2, List.find?_some hd⟩
    unfold findMockDefinition
    rw [hd]

/-- Witness for C1: three overlapping definitions loaded in the order
wildcard, parameterized, exact — resolution still selects the exact-tier
definition, and the selected definition is never the wildcard one. -/
theorem findMockDefinition_tier_priority_witness :
    (∃ d, findMockDefinition
        [compileDefinition ⟨"h", "/a/*", "GET", "", []⟩,
         compileDefinition ⟨"h", "/a/:id", "GET", "", []⟩,
         compileDefinition ⟨"h", "/a/b", "GET", "", []⟩] "h" "GET" "/a/b" = some d ∧
      d.containsWildcard = false ∧ pathMatches "/a/b" d = true) ∧
    (∀ dE, dE ∈ [compileDefinition ⟨"h", "/a/*", "GET", "", []⟩,
         compileDefinition ⟨"h", "/a/:id", "GET", "", []⟩,
         compileDefinition ⟨"h", "/a/b", "GET", "", []⟩] → dE.method = "GET" →
      dE.host = "h" → dE.containParams = false → dE.containsWildcard = false →
      pathMatches "/a/b" dE = true →
      ∃ d, findMockDefinition
          [compileDefinition ⟨"h", "/a/*", "GET", "", []⟩,
           compileDefinition ⟨"h", "/a/:id", "GET", "", []⟩,
           compileDefinition ⟨"h", "/a/b", "GET", "", []⟩] "h" "GET" "/a/b" = some d ∧
        d.containParams = false ∧ d.containsWildcard = false ∧
        pathMatches "/a/b" d = true) :=
  findMockDefinition_tier_priority
    [compileDefinition ⟨"h", "/a/*", "GET", "", []⟩,
     compileDefinition ⟨"h", "/a/:id", "GET", "", []⟩,
     compileDefinition ⟨"h", "/a/b", "GET", "", []⟩] "h" "GET" "/a/b"
    (compileDefinition ⟨"h", "/a/:id", "GET", "", []⟩)
    (compileDefinition ⟨"h", "/a/*", "GET", "", []⟩)
    (by decide) rfl rfl rfl rfl (by decide) rfl rfl rfl rfl rfl

/-! ## Claim C4: response selection -/

/-- The boolean that `isRuleFulfilled` returns for one rule in a context
where the evaluator does not produce a non-boolean value: `true` exactly
when the rule evaluates to the boolean `true` (an evaluator error counts as
`false`). -/
def ruleSatisfied (evalOf : String → ExprOutcome) (rule : String) : Bool :=
  match evalOf rule with
  | .boolVal true => true
  | _ => false

/-- When no rule evaluates to a non-boolean value, `allRules` returns the
plain conjunction of the rules' satisfaction values. -/
theorem allRules_no_panic (evalOf : String → ExprOutcome) :
    ∀ (rules : List String), (∀ r ∈ rules, evalOf r ≠ ExprOutcome.nonBoolVal) →
      allRules evalOf rules = some (rules.all (ruleSatisfied evalOf)) := by
  intro rules
  induction rules with
  | nil => intro; rfl
  | cons r rest ih =>
    intro h
    have hr : evalOf r ≠ ExprOutcome.nonBoolVal := h r (List.mem_cons_self r rest)
    have hrest := ih (fun x hx => h x (List.mem_cons_of_mem r hx))
    simp only [allRules, List.all_cons]
    cases ho : evalOf r with
    | evalError => simp [isRuleFulfilled, ruleSatisfied, ho]
    | nonBoolVal => exact absurd ho hr
    | boolVal b =>
      cases b with
      | false => simp [isRuleFulfilled, ruleSatisfied, ho]
      | true => simp [isRuleFulfilled, ruleSatisfied, ho, hrest]

/-- When the scan predicate is total (`some` of a boolean), `findFirstOpt`
returns the first satisfying element, or the zero response when there is
none. -/
theorem findFirstOpt_total (p : MockResponse → Option Bool) (q : MockResponse → Bool) :
    ∀ (l : List MockResponse), (∀ x ∈ l, p x = some (q x)) →
      findFirstOpt p l = some (match l.find? q with
        | some x => x
        | none => zeroResponse) := by
  intro l
  induction l with
  | nil => intro; rfl
  | cons x rest ih =>
    intro h
    have hx := h x (List.mem_cons_self x rest)
    have hrest := ih (fun y hy => h y (List.mem_cons_of_mem x hy))
    simp only [findFirstOpt, hx, List.find?_cons]
    cases hq : q x with
    | true => rfl
    | false => simpa using hrest

/-- C4 corrected: for a matched definition and a request context under which
no rule evaluates to a non-boolean value (see C2), selection returns the
first response in declaration order whose rule list is non-empty and whose
rules all hold; failing that, the first response whose rule list is empty —
PROVIDED that default is not "nil" (status code 0, empty body, no rules):
a nil first default is treated as absent and yields no response, which the
resolver then reports as `ErrNoMockResponse` (second conjunct). -/
theorem chooseResponse_spec (evalOf : String → ExprOutcome) (responses : List MockResponse)
    (hnp : ∀ resp ∈ responses, ∀ rule ∈ resp.rules, evalOf rule ≠ ExprOutcome.nonBoolVal) :
    chooseResponse evalOf responses = some (
      match responses.find? (fun r => !r.rules.isEmpty && r.rules.all (ruleSatisfied evalOf)) with
      | some r => some r
      | none =>
        match responses.find? (fun r => r.rules.isEmpty) with
        | some d => if d.isNil then none else some d
        | none => none) ∧
    (∀ (rawS : String) (formO jsonO xmlO : Except Unit Unit) (defs : List MockDefinition)
      (req : HttpRequest) (d : MockDefinition),
      findMockDefinition defs req.host req.method (CleanPath req.escapedPath) = some d →
      validateTarget req.method req.headers = none → req.hasBody = false →
      chooseResponse evalOf d.responses = some none →
      resolveSelect evalOf (.ok rawS) formO jsonO xmlO defs req =
        some (.error .noMockResponse)) := by
  constructor
  · have hp1 : ∀ x ∈ responses,
        (if x.isDefault then some false else allRules evalOf x.rules) =
          some (!x.rules.isEmpty && x.rules.all (ruleSatisfied evalOf)) := by
      intro x hx
      by_cases hd : x.isDefault
      · simp only [if_pos hd]
        simp only [MockResponse.isDefault] at hd
        simp [hd]
      · simp only [if_neg hd]
        simp only [MockResponse.isDefault] at hd
        rw [allRules_no_panic evalOf x.rules (hnp x hx)]
        simp [hd]
    unfold chooseResponse
    rw [findFirstOpt_total _ _ responses hp1]
    cases hfind : responses.find?
        (fun r => !r.rules.isEmpty && r.rules.all (ruleSatisfied evalOf)) with
    | some r =>
      have hq := List.find?_some hfind
      have hrules : r.rules.isEmpty = false := by
        rcases Bool.and_eq_true .. |>.mp hq with ⟨h1, _⟩
        simpa using h1
      have hnil : r.isNil = false := by
        simp [MockResponse.isNil, hrules]
      simp [hnil]
    | none =>
      have hz : zeroResponse.isNil = true := rfl
      simp only [hz, Bool.not_true, Bool.false_eq_true, if_false]
      rw [findFirstOpt_total _ (fun d => d.isDefault) responses (fun x _ => rfl)]
      have hdefault : (responses.find? fun d => d.isDefault) =
          responses.find? (fun r => r.rules.isEmpty) := rfl
      rw [hdefault]
      cases hdf : responses.find? (fun r => r.rules.isEmpty) with
      | some d =>
        by_cases hdn : d.isNil
        · simp [hdn]
        · simp [hdn]
      | none => simp [hz]
  · intro rawS formO jsonO xmlO defs req d hfind hval hbody hchoose
    unfold resolveSelect
    rw [hbody]
    simp only [if_false, Bool.false_eq_true]
    unfold findMockResponse findResponse
    rw [hfind, hval]
    simp [hchoose]

/-- C4 counterexample: a definition whose single response has an EMPTY rule
list but is the zero record (status code 0, empty body): the claim as
stated demands this first rule-less response be returned, but selection
treats it as absent and returns no response. -/
theorem chooseResponse_zero_default_counterexample :
    zeroResponse.isDefault = true ∧
    chooseResponse (fun _ => ExprOutcome.evalError) [zeroResponse] = some none :=
  ⟨rfl, rfl⟩

/-- Witness for C4 at a concrete definition: a rule-bearing response whose
rule holds is selected over a later default. -/
theorem chooseResponse_spec_witness :
    chooseResponse (fun r => if r = "ok" then ExprOutcome.boolVal true else ExprOutcome.evalError)
      [⟨[], ["ok"], 0, 200, false, "y"⟩, ⟨[], [], 0, 404, false, "d"⟩] =
      some (some ⟨[], ["ok"], 0, 200, false, "y"⟩) :=
  ((chooseResponse_spec
      (fun r => if r = "ok" then ExprOutcome.boolVal true else ExprOutcome.evalError)
      [⟨[], ["ok"], 0, 200, false, "y"⟩, ⟨[], [], 0, 404, false, "d"⟩]
      (by decide)).1).trans rfl

/-! ## Claim C10: nil responses are never selected -/

/-- When the scan predicate yields `some false` on every element,
`findFirstOpt` falls through to the zero response. -/
theorem findFirstOpt_all_false (p : MockResponse → Option Bool) :
    ∀ (l : List MockResponse), (∀ x ∈ l, p x = some false) →
      findFirstOpt p l = some zeroResponse := by
  intro l
  induction l with
  | nil => intro; rfl
  | cons x rest ih =>
    intro h
    simp only [findFirstOpt, h x (List.mem_cons_self x rest)]
    exact ih (fun y hy => h y (List.mem_cons_of_mem x hy))

/-- C10: if every rule-bearing response of the matched definition is
unfulfilled and every rule-less (default) response is "nil" (status code 0,
empty body, no rules), selection treats the declared default as absent and
returns no response (which `Resolve` reports as `ErrNoMockResponse`); and in
general any response selection returns is non-nil — in particular never the
zero record. -/
theorem chooseResponse_nil_default_absent (evalOf : String → ExprOutcome)
    (responses : List MockResponse)
    (h1 : ∀ r ∈ responses, r.isDefault = false → allRules evalOf r.rules = some false)
    (h2 : ∀ r ∈ responses, r.isDefault = true → r.isNil = true) :
    chooseResponse evalOf responses = some none ∧
    (∀ (evalOf' : String → ExprOutcome) (responses' : List MockResponse) (r : MockResponse),
      chooseResponse evalOf' responses' = some (some r) →
      r.isNil = false ∧ r ≠ zeroResponse) := by
  constructor
  · have hp1 : ∀ x ∈ responses,
        (if x.isDefault then some false else allRules evalOf x.rules) = some false := by
      intro x hx
      by_cases hd : x.isDefault
      · simp [hd]
      · simp only [if_neg hd]
        exact h1 x hx (by simpa using hd)
    unfold chooseResponse
    rw [findFirstOpt_all_false _ responses hp1]
    have hz : zeroResponse.isNil = true := rfl
    simp only [hz, Bool.not_true, Bool.false_eq_true, if_false]
    rw [findFirstOpt_total _ (fun d => d.isDefault) responses (fun x _ => rfl)]
    cases hdf : responses.find? (fun d => d.isDefault) with
    | some d =>
      have hdnil : d.isNil = true :=
        h2 d (List.mem_of_find?_eq_some hdf) (List.find?_some hdf)
      simp [hdnil]
    | none => simp [hz]
  · intro evalOf' responses' r hr
    unfold chooseResponse at hr
    cases hfo : findFirstOpt
        (fun data => if data.isDefault then some false else allRules evalOf' data.rules)
        responses' with
    | none => rw [hfo] at hr; cases hr
    | some correct =>
      rw [hfo] at hr
      by_cases hcn : correct.isNil
      · simp only [hcn, Bool.not_true, Bool.false_eq_true, if_false] at hr
        cases hfd : findFirstOpt (fun data => some data.isDefault) responses' with
        | none => rw [hfd] at hr; cases hr
        | some dflt =>
          rw [hfd] at hr
          by_cases hdn : dflt.isNil
          · simp [hdn] at hr
          · simp only [hdn, Bool.not_false, if_true] at hr
            have : dflt = r := by injection hr with h'; injection h'
            subst this
            refine ⟨by simpa using hdn, ?_⟩
            intro hcontra
            rw [hcontra] at hdn
            exact hdn rfl
      · simp only [hcn, Bool.not_eq_true', Bool.not_false, if_true] at hr
        have : correct = r := by injection hr with h'; injection h'
        subst this
        refine ⟨by simpa using hcn, ?_⟩
        intro hcontra
        rw [hcontra] at hcn
        exact hcn rfl

/-- Witness for C10: one unfulfilled rule-bearing response and one nil
default — selection yields no response although a default is declared. -/
theorem chooseResponse_nil_default_absent_witness :
    chooseResponse (fun _ => ExprOutcome.boolVal false)
      [⟨[], ["r"], 0, 500, false, "e"⟩, zeroResponse] = some none :=
  (chooseResponse_nil_default_absent (fun _ => ExprOutcome.boolVal false)
    [⟨[], ["r"], 0, 500, false, "e"⟩, zeroResponse]
    (by decide) (by decide)).1

/-! ## Claim C6: mutating methods without Content-Type -/

/-- C6 corrected (amended part): for PUT, POST and PATCH requests without a
`Content-Type` header the resolve call fails with a content-type error —
`ErrUnsupportedContentType` out of body extraction when a body is present,
`ErrNoContentType` out of `validateTarget` when no body is present and a
definition matches.  (DELETE, although mutating, is exempt from
`validateTarget` and is only caught when it carries a body.) -/
theorem resolve_mutating_no_content_type (evalOf : String → ExprOutcome) (rawS : String)
    (formO jsonO xmlO : Except Unit Unit) (defs : List MockDefinition) (req : HttpRequest)
    (hm : req.method = "PUT" ∨ req.method = "POST" ∨ req.method = "PATCH")
    (hct : req.headers "Content-Type" = none) :
    (req.hasBody = true →
      resolveSelect evalOf (.ok rawS) formO jsonO xmlO defs req =
        some (.error .unsupportedContentType)) ∧
    (req.hasBody = false →
      ∀ d, findMockDefinition defs req.host req.method (CleanPath req.escapedPath) = some d →
      resolveSelect evalOf (.ok rawS) formO jsonO xmlO defs req =
        some (.error .noContentType)) := by
  constructor
  · intro hbody
    unfold resolveSelect
    rw [hbody]
    simp only [if_true]
    unfold extractReqBody
    rw [hct]
  · intro hbody d hfind
    unfold resolveSelect
    rw [hbody]
    simp only [if_false, Bool.false_eq_true]
    unfold findMockResponse findResponse
    rw [hfind]
    have hval : validateTarget req.method req.headers = some .noContentType := by
      unfold validateTarget
      have hskip : (["GET", "HEAD", "DELETE"].any (· == req.method)) = false := by
        rcases hm with h | h | h <;> rw [h] <;> rfl
      rw [hskip]
      simp only [Bool.false_eq_true, if_false]
      rw [hct]
    rw [hval]

/-- C6 counterexample: a DELETE request with NO body and NO `Content-Type`
header against a matching definition does not produce a content-type error —
`validateTarget` skips GET/HEAD/DELETE entirely — and resolution proceeds to
return the definition's default response. -/
theorem resolve_delete_no_content_type_counterexample :
    resolveSelect (fun _ => ExprOutcome.evalError) (.ok "") (.ok ()) (.ok ()) (.ok ())
      [compileDefinition ⟨"h", "/a", "DELETE", "", [⟨[], [], 0, 404, false, "x"⟩]⟩]
      ⟨"h", "DELETE", "/a", (fun _ => none), (fun _ => none), (fun _ => none), false⟩ =
      some (.ok ⟨[], [], 0, 404, false, "x"⟩) := rfl

/-- Witness for C6 at a concrete PUT request with no body and no
`Content-Type`, against a matching definition. -/
theorem resolve_mutating_no_content_type_witness :
    resolveSelect (fun _ => ExprOutcome.evalError) (.ok "") (.ok ()) (.ok ()) (.ok ())
      [compileDefinition ⟨"h", "/a", "PUT", "", [⟨[], [], 0, 404, false, "x"⟩]⟩]
      ⟨"h", "PUT", "/a", (fun _ => none), (fun _ => none), (fun _ => none), false⟩ =
      some (.error .noContentType) :=
  (resolve_mutating_no_content_type (fun _ => ExprOutcome.evalError) "" (.ok ()) (.ok ()) (.ok ())
    [compileDefinition ⟨"h", "/a", "PUT", "", [⟨[], [], 0, 404, false, "x"⟩]⟩]
    ⟨"h", "PUT", "/a", (fun _ => none), (fun _ => none), (fun _ => none), false⟩
    (Or.inl rfl) rfl).2 rfl
    (compileDefinition ⟨"h", "/a", "PUT", "", [⟨[], [], 0, 404, false, "x"⟩]⟩) rfl

/-! ## Claim C7: `CleanPath` is idempotent

Strategy: characterise the outputs of `CleanPath` — `"/"` followed by a body
made of `/`-separated segments that are nonempty, slash-free and different
from `.` and `..`, with at most a single trailing slash — show every output
is of this shape, and show `CleanPath` is the identity on strings of this
shape. -/

/-- A path segment as emitted by the default case of the `CleanPath` loop:
nonempty, slash-free, and not a `.` or `..` element. -/
def goodSeg (s : List Char) : Prop :=
  s ≠ [] ∧ (∀ c ∈ s, c ≠ '/') ∧ s ≠ ['.'] ∧ s ≠ ['.', '.']

/-- Canonical path bodies (what may follow the leading `'/'` of a cleaned
path): empty, a single segment, or a segment followed by a separator and a
canonical body (`CanonBody []` after a separator encodes a trailing
slash). -/
inductive CanonBody : List Char → Prop
  | nil : CanonBody []
  | single (s : List Char) (hs : goodSeg s) : CanonBody s
  | cons (s b : List Char) (hs : goodSeg s) (hb : CanonBody b) : CanonBody (s ++ '/' :: b)

/-- Remove a single trailing slash if present. -/
def stripT (l : List Char) : List Char :=
  if l.getLast? = some '/' then l.dropLast else l

theorem stripT_no_slash {s : List Char} (h : ∀ c ∈ s, c ≠ '/') : stripT s = s := by
  unfold stripT
  cases hlast : s.getLast? with
  | none => simp
  | some c =>
    have hcs : c ∈ s := by
      have hne : s ≠ [] := by rintro rfl; simp at hlast
      have := List.getLast?_eq_getLast s hne
      rw [this] at hlast
      injection hlast with hlast
      rw [← hlast]
      exact List.getLast_mem hne
    simp [h c hcs]

/-- Splitting `takeWhile`/`dropWhile` over a slash-free prefix followed by a
separator boundary. -/
theorem takeWhile_append_boundary (s1 b : List Char) (h : ∀ c ∈ s1, c ≠ '/')
    (hb : b = [] ∨ b.head? = some '/') :
    (s1 ++ b).takeWhile (· ≠ '/') = s1 ∧ (s1 ++ b).dropWhile (· ≠ '/') = b := by
  induction s1 with
  | nil =>
    rcases hb with rfl | hhead
    · exact ⟨rfl, rfl⟩
    · cases b with
      | nil => exact ⟨rfl, rfl⟩
      | cons c r =>
        have : c = '/' := by simpa using hhead
        subst this
        constructor <;> simp [List.takeWhile_cons, List.dropWhile_cons]
  | cons c s1 ih =>
    have hc : c ≠ '/' := h c (List.mem_cons_self c s1)
    have ihr := ih (fun x hx => h x (List.mem_cons_of_mem c hx))
    constructor
    · simpa [List.takeWhile_cons, hc] using ihr.1
    · simpa [List.dropWhile_cons, hc] using ihr.2

/-- An empty `takeWhile (· ≠ '/')` means the list is empty or starts with a
slash. -/
theorem takeWhile_eq_nil_boundary {l : List Char} (h : l.takeWhile (· ≠ '/') = []) :
    l = [] ∨ l.head? = some '/' := by
  cases l with
  | nil => exact Or.inl rfl
  | cons c r =>
    rw [List.takeWhile_cons] at h
    by_cases hc : c = '/'
    · exact Or.inr (by simp [hc])
    · simp [hc] at h

/-- One step of `cleanLoop` over a good segment followed by a separator
boundary: the whole segment is consumed by the default case and appended. -/
theorem segStep (fuel : Nat) (s b out : List Char) (tr : Bool) (hs : goodSeg s)
    (hb : b = [] ∨ b.head? = some '/') :
    cleanLoop (fuel + 1) (s ++ b) out tr = cleanLoop fuel b (appendSeg out s) tr := by
  obtain ⟨hne, hnosl, hdot, hdots⟩ := hs
  cases s with
  | nil => exact absurd rfl hne
  | cons c s1 =>
    have hc : c ≠ '/' := hnosl c (List.mem_cons_self c s1)
    have htw := takeWhile_append_boundary s1 b
      (fun x hx => hnosl x (List.mem_cons_of_mem c hx)) hb
    rw [List.cons_append]
    by_cases hcdot : c = '.'
    · subst hcdot
      cases s1 with
      | nil => exact absurd rfl hdot
      | cons c2 s2 =>
        have hc2 : c2 ≠ '/' := hnosl c2 (by simp)
        have hguard : ¬(c2 = '.' ∧ (s2 ++ b = [] ∨ (s2 ++ b).head? = some '/')) := by
          rintro ⟨rfl, hor⟩
          cases s2 with
          | nil => exact hdots rfl
          | cons c3 s3 =>
            have hc3 : c3 ≠ '/' := hnosl c3 (by simp)
            rcases hor with habs | habs
            · simp at habs
            · rw [List.cons_append] at habs
              simp at habs
              exact hc3 habs
        rw [List.cons_append] at htw
        simp only [cleanLoop, List.cons_append]
        rw [if_neg hc, if_pos trivial, if_neg hc2, if_neg hguard, htw.1, htw.2]
    · simp only [cleanLoop]
      rw [if_neg hc, if_neg hcdot, htw.1, htw.2]

/-- `stripT` distributes over a leading segment when the remaining body is
nonempty. -/
theorem stripT_append_cons (s b : List Char) (hb : b ≠ []) :
    stripT (s ++ '/' :: b) = s ++ '/' :: stripT b := by
  unfold stripT
  have hlast : (s ++ '/' :: b).getLast? = b.getLast? := by
    rw [List.getLast?_append_of_ne_nil s (by simp)]
    exact List.getLast?_append_of_ne_nil ['/'] hb
  rw [hlast]
  by_cases hsl : b.getLast? = some '/'
  · rw [if_pos hsl, if_pos hsl]
    rw [List.dropLast_append_of_ne_nil s (by simp)]
    rw [show ('/' :: b) = ['/'] ++ b from rfl, List.dropLast_append_of_ne_nil ['/'] hb]
    rfl
  · rw [if_neg hsl, if_neg hsl]

/-- The identity behaviour of the cleaning loop on a canonical body:
each segment is copied verbatim (`segStep`), separators are skipped, and a
trailing separator is dropped (it is restored from the `trailing` flag by
`CleanPath` itself). -/
theorem cleanLoop_canon {body : List Char} (hb : CanonBody body) :
    ∀ (fuel : Nat) (out : List Char) (tr : Bool), body.length ≤ fuel → 1 ≤ out.length →
      cleanLoop fuel body out tr =
        ((if body = [] then out else appendSeg out (stripT body)), tr) := by
  induction hb with
  | nil =>
    intro fuel out tr _ _
    simp only [if_pos rfl]
    cases fuel <;> rfl
  | single s hs =>
    intro fuel out tr hlen hout
    have hsne : s ≠ [] := hs.1
    have hslen : 1 ≤ s.length := List.length_pos.mpr hsne
    obtain ⟨f, rfl⟩ : ∃ f, fuel = f + 1 := ⟨fuel - 1, by omega⟩
    have hstep := segStep f s [] out tr hs (Or.inl rfl)
    rw [List.append_nil] at hstep
    rw [hstep, if_neg hsne, stripT_no_slash hs.2.1]
    cases f <;> rfl
  | cons s b hs hbk ih =>
    intro fuel out tr hlen hout
    have hsne : s ≠ [] := hs.1
    have hslen : 1 ≤ s.length := List.length_pos.mpr hsne
    have hblen : (s ++ '/' :: b).length = s.length + 1 + b.length := by
      simp [List.length_append]
      omega
    obtain ⟨f, rfl⟩ : ∃ f, fuel = f + 1 := ⟨fuel - 1, by omega⟩
    rw [segStep f s ('/' :: b) out tr hs (Or.inr rfl)]
    have houtlen : 1 < (appendSeg out s).length := by
      unfold appendSeg
      by_cases h1 : 1 < out.length
      · rw [if_pos h1]
        simp [List.length_append]
        omega
      · rw [if_neg h1]
        simp [List.length_append]
        omega
    obtain ⟨g, rfl⟩ : ∃ g, f = g + 1 := ⟨f - 1, by rw [hblen] at hlen; omega⟩
    have hslash : cleanLoop (g + 1) ('/' :: b) (appendSeg out s) tr =
        cleanLoop g b (appendSeg out s) tr := by
      simp [cleanLoop]
    rw [hslash, ih g (appendSeg out s) tr (by rw [hblen] at hlen; omega) (by omega)]
    by_cases hbe : b = []
    · subst hbe
      have hst : stripT (s ++ '/' :: []) = s := by
        unfold stripT
        rw [show s ++ '/' :: [] = s ++ ['/'] from rfl]
        rw [List.getLast?_append_of_ne_nil s (by simp)]
        simp
      simp [hst]
    · rw [if_neg hbe, if_neg (show s ++ '/' :: b ≠ [] by simp)]
      rw [stripT_append_cons s b hbe]
      unfold appendSeg
      have hinner : 1 < ((if 1 < out.length then out ++ ['/'] else out) ++ s).length :=
        houtlen
      rw [if_pos hinner]
      simp [List.append_assoc]

/-- A canonical body ending in a separator has at least two characters
(a good segment precedes the separator). -/
theorem canonBody_dropLast_ne_nil {body : List Char} (hb : CanonBody body)
    (hsl : body.getLast? = some '/') : 1 ≤ body.dropLast.length := by
  cases hb with
  | nil => simp at hsl
  | single s hs =>
    exfalso
    have hne : body ≠ [] := hs.1
    have := List.getLast?_eq_getLast body hne
    rw [this] at hsl
    injection hsl with hsl
    exact hs.2.1 _ (List.getLast_mem hne) hsl
  | cons s b hs _ =>
    have hsl1 : 1 ≤ s.length := List.length_pos.mpr hs.1
    have : (s ++ '/' :: b).length = s.length + 1 + b.length := by
      simp [List.length_append]
      omega
    rw [List.length_dropLast, this]
    omega

/-- `CleanPath` is the identity on canonical strings: a leading slash
followed by a canonical body. -/
theorem cleanPath_canon_id (q : String) (body : List Char) (hq : q.data = '/' :: body)
    (hb : CanonBody body) : CleanPath q = q := by
  obtain ⟨d⟩ := q
  have hd : d = '/' :: body := hq
  subst hd
  show CleanPath (String.mk ('/' :: body)) = String.mk ('/' :: body)
  change String.mk
    (if (cleanLoop ('/' :: body).length body ['/']
          (decide (1 < ('/' :: body).length) && (('/' :: body).getLast? == some '/'))).2 &&
        decide (1 < (cleanLoop ('/' :: body).length body ['/']
          (decide (1 < ('/' :: body).length) && (('/' :: body).getLast? == some '/'))).1.length)
     then (cleanLoop ('/' :: body).length body ['/']
          (decide (1 < ('/' :: body).length) && (('/' :: body).getLast? == some '/'))).1 ++ ['/']
     else (cleanLoop ('/' :: body).length body ['/']
          (decide (1 < ('/' :: body).length) && (('/' :: body).getLast? == some '/'))).1) =
    String.mk ('/' :: body)
  rw [cleanLoop_canon hb ('/' :: body).length ['/'] _ (by simp) (by simp)]
  by_cases hbe : body = []
  · subst hbe
    rfl
  · rw [if_neg hbe]
    have happ : appendSeg ['/'] (stripT body) = '/' :: stripT body := by
      unfold appendSeg
      simp
    have hlast : ('/' :: body).getLast? = body.getLast? :=
      List.getLast?_append_of_ne_nil ['/'] hbe
    have hlen1 : decide (1 < ('/' :: body).length) = true := by
      have : 1 ≤ body.length := List.length_pos.mpr hbe
      simp
      omega
    by_cases hsl : body.getLast? = some '/'
    · have htr : (decide (1 < ('/' :: body).length) && (('/' :: body).getLast? == some '/')) =
          true := by
        rw [hlen1, hlast, hsl]
        rfl
      rw [htr, happ]
      have hst : stripT body = body.dropLast := by unfold stripT; rw [if_pos hsl]
      rw [hst]
      have hdl : 1 ≤ body.dropLast.length := canonBody_dropLast_ne_nil hb hsl
      have hcond : (true && decide (1 < ('/' :: body.dropLast).length)) = true := by
        have hlist : ('/' :: body.dropLast).length = body.dropLast.length + 1 := rfl
        rw [Bool.true_and, decide_eq_true_eq, hlist]
        omega
      rw [hcond, if_pos rfl]
      have hbne : body ≠ [] := hbe
      have hgl : body.getLast hbne = '/' := by
        have := List.getLast?_eq_getLast body hbne
        rw [this] at hsl
        injection hsl
      have : body.dropLast ++ ['/'] = body := by
        conv_rhs => rw [← List.dropLast_append_getLast hbne]
        rw [hgl]
      simp only [List.cons_append, this]
    · have htr : (decide (1 < ('/' :: body).length) && (('/' :: body).getLast? == some '/')) =
          false := by
        rw [hlast]
        have : (body.getLast? == some '/') = false := by
          simp [hsl]
        rw [this, Bool.and_false]
      rw [htr, happ]
      have hst : stripT body = body := by unfold stripT; rw [if_neg hsl]
      rw [hst]
      rfl

/-- A slash-free list never ends in a slash. -/
theorem getLast?_ne_slash {s : List Char} (h : ∀ c ∈ s, c ≠ '/') :
    s.getLast? ≠ some '/' := by
  intro hcontra
  have hne : s ≠ [] := by rintro rfl; simp at hcontra
  have := List.getLast?_eq_getLast s hne
  rw [this] at hcontra
  injection hcontra with hc
  exact h _ (List.getLast_mem hne) hc

theorem backRev_cons_slash (l : List Char) : backRev ('/' :: l) = l := by
  simp [backRev]

/-- Backtracking over the reversed last segment stops at the separator and
drops it, leaving the (reversed) prefix — provided the prefix is nonempty
(the length guard `w > 1` never fires inside the segment). -/
theorem backRev_strip_segment : ∀ (t preRev : List Char), (∀ c ∈ t, c ≠ '/') →
    1 ≤ preRev.length → backRev (t ++ '/' :: preRev) = preRev := by
  intro t
  induction t with
  | nil => intro preRev _ _; exact backRev_cons_slash preRev
  | cons c t' ih =>
    intro preRev h hp
    have hc : c ≠ '/' := h c (List.mem_cons_self c t')
    rw [List.cons_append]
    have hlen : ¬(t' ++ '/' :: preRev).length ≤ 1 := by
      simp [List.length_append]
      omega
    simp only [backRev]
    rw [if_neg hlen, if_neg hc]
    exact ih preRev (fun x hx => h x (List.mem_cons_of_mem c hx)) hp

/-- Backtracking over a single reversed segment followed by the leading
slash stops at the length guard, keeping only the leading slash. -/
theorem backRev_strip_to_root : ∀ (t : List Char), t ≠ [] → (∀ c ∈ t, c ≠ '/') →
    backRev (t ++ ['/']) = ['/'] := by
  intro t
  induction t with
  | nil => intro h _; exact absurd rfl h
  | cons c t' ih =>
    intro _ h
    cases t' with
    | nil => simp [backRev]
    | cons c2 t2 =>
      have hc : c ≠ '/' := h c (List.mem_cons_self c (c2 :: t2))
      rw [List.cons_append]
      have hlen : ¬((c2 :: t2) ++ ['/']).length ≤ 1 := by
        simp [List.length_append]
      simp only [backRev]
      rw [if_neg hlen, if_neg hc]
      exact ih (by simp) (fun x hx => h x (List.mem_cons_of_mem c hx))

/-- The invariant maintained on the output buffer by the cleaning loop: a
leading slash followed by a canonical body with no trailing separator. -/
def CanonOut (out : List Char) : Prop :=
  ∃ core, out = '/' :: core ∧ CanonBody core ∧ core.getLast? ≠ some '/'

/-- Any nonempty canonical body with no trailing separator is a single good
segment, or a shorter such body followed by a separator and a final good
segment. -/
theorem canonBody_decomp : ∀ {core : List Char}, CanonBody core → core ≠ [] →
    core.getLast? ≠ some '/' →
    goodSeg core ∨
      (∃ pre s, goodSeg s ∧ CanonBody pre ∧ pre ≠ [] ∧ pre.getLast? ≠ some '/' ∧
        core = pre ++ '/' :: s) := by
  intro core hb
  induction hb with
  | nil => intro hne _; exact absurd rfl hne
  | single s hs => intro _ _; exact Or.inl hs
  | cons s b hs hbk ih =>
    intro _ hnl
    by_cases hbe : b = []
    · exfalso
      subst hbe
      apply hnl
      rw [show s ++ '/' :: [] = s ++ ['/'] from rfl]
      rw [List.getLast?_append_of_ne_nil s (by simp)]
      rfl
    · have hlast : (s ++ '/' :: b).getLast? = b.getLast? := by
        rw [List.getLast?_append_of_ne_nil s (by simp)]
        exact List.getLast?_append_of_ne_nil ['/'] hbe
      have hbnl : b.getLast? ≠ some '/' := by rw [← hlast]; exact hnl
      right
      rcases ih hbe hbnl with hgood | ⟨pre, s', hgs, hcp, hpne, hpnl, hbeq⟩
      · exact ⟨s, b, hgood, CanonBody.single s hs, hs.1,
          getLast?_ne_slash hs.2.1, rfl⟩
      · refine ⟨s ++ '/' :: pre, s', hgs, CanonBody.cons s pre hs hcp, by simp, ?_, ?_⟩
        · rw [List.getLast?_append_of_ne_nil s (by simp)]
          rw [show ('/' :: pre) = ['/'] ++ pre from rfl]
          rw [List.getLast?_append_of_ne_nil ['/'] hpne]
          exact hpnl
        · rw [hbeq]
          simp [List.append_assoc]

/-- The `..` backtracking step preserves the output invariant. -/
theorem canonOut_backtrack {out : List Char} (h : CanonOut out) :
    CanonOut (backtrack out) := by
  obtain ⟨core, rfl, hcb, hnl⟩ := h
  unfold backtrack
  by_cases hlen : 1 < ('/' :: core).length
  · rw [if_pos hlen]
    have hcne : core ≠ [] := by
      intro hc
      subst hc
      simp at hlen
    rcases canonBody_decomp hcb hcne hnl with hgood | ⟨pre, s, hgs, hcp, hpne, hpnl, rfl⟩
    · have hshape : ('/' :: core).reverse = core.reverse ++ ['/'] := by
        simp [List.reverse_cons]
      rw [hshape, backRev_strip_to_root core.reverse (by simpa using hcne)
        (fun c hc => hgood.2.1 c (by simpa using hc))]
      exact ⟨[], rfl, CanonBody.nil, by simp⟩
    · have hshape : ('/' :: (pre ++ '/' :: s)).reverse =
          s.reverse ++ '/' :: ('/' :: pre).reverse := by
        simp [List.reverse_cons, List.reverse_append, List.append_assoc]
      rw [hshape, backRev_strip_segment s.reverse (('/' :: pre).reverse)
        (fun c hc => hgs.2.1 c (by simpa using hc)) (by simp),
        List.reverse_reverse]
      exact ⟨pre, rfl, hcp, hpnl⟩
  · rw [if_neg hlen]
    exact ⟨core, rfl, hcb, hnl⟩

/-- Appending a separator and a good segment to a nonempty canonical body
with no trailing separator yields a canonical body. -/
theorem canonBody_append (seg : List Char) (hseg : goodSeg seg) :
    ∀ {core : List Char}, CanonBody core → core ≠ [] → core.getLast? ≠ some '/' →
      CanonBody (core ++ '/' :: seg) := by
  intro core hb
  induction hb with
  | nil => intro hne _; exact absurd rfl hne
  | single s hs => intro _ _; exact CanonBody.cons _ seg hs (CanonBody.single seg hseg)
  | cons s b hs hbk ih =>
    intro _ hnl
    by_cases hbe : b = []
    · exfalso
      subst hbe
      apply hnl
      rw [show s ++ '/' :: [] = s ++ ['/'] from rfl]
      rw [List.getLast?_append_of_ne_nil s (by simp)]
      rfl
    · have hlast : (s ++ '/' :: b).getLast? = b.getLast? := by
        rw [List.getLast?_append_of_ne_nil s (by simp)]
        exact List.getLast?_append_of_ne_nil ['/'] hbe
      have hbnl : b.getLast? ≠ some '/' := by rw [← hlast]; exact hnl
      have := CanonBody.cons s (b ++ '/' :: seg) hs (ih hbe hbnl)
      simpa [List.append_assoc] using this

/-- The default (segment-copy) step preserves the output invariant. -/
theorem canonOut_appendSeg {out : List Char} (h : CanonOut out) {seg : List Char}
    (hseg : goodSeg seg) : CanonOut (appendSeg out seg) := by
  obtain ⟨core, rfl, hcb, hnl⟩ := h
  unfold appendSeg
  by_cases hc : core = []
  · subst hc
    rw [if_neg (by simp)]
    exact ⟨seg, by simp, CanonBody.single seg hseg, getLast?_ne_slash hseg.2.1⟩
  · have hlen : 1 < ('/' :: core).length := by
      have : 1 ≤ core.length := List.length_pos.mpr hc
      simp
      omega
    rw [if_pos hlen]
    refine ⟨core ++ '/' :: seg, by simp [List.append_assoc], 
      canonBody_append seg hseg hcb hc hnl, ?_⟩
    rw [List.getLast?_append_of_ne_nil core (by simp)]
    rw [show ('/' :: seg) = ['/'] ++ seg from rfl]
    rw [List.getLast?_append_of_ne_nil ['/'] hseg.1]
    exact getLast?_ne_slash hseg.2.1

/-- The cleaning loop preserves the output invariant from any input. -/
theorem cleanLoop_canonOut : ∀ (fuel : Nat) (rest out : List Char) (tr : Bool),
    CanonOut out → CanonOut (cleanLoop fuel rest out tr).1 := by
  intro fuel
  induction fuel with
  | zero => intro rest out tr h; exact h
  | succ f ih =>
    intro rest out tr h
    cases rest with
    | nil => exact h
    | cons c rest1 =>
      by_cases hc : c = '/'
      · subst hc
        exact ih rest1 out tr h
      · by_cases hcd : c = '.'
        · subst hcd
          cases rest1 with
          | nil => exact h
          | cons c2 rest2 =>
            by_cases hc2 : c2 = '/'
            · subst hc2
              exact ih rest2 out tr h
            · by_cases hg : c2 = '.' ∧ (rest2 = [] ∨ rest2.head? = some '/')
              · have heq : cleanLoop (f + 1) ('.' :: c2 :: rest2) out tr =
                    cleanLoop f rest2.tail (backtrack out) tr := by
                  simp only [cleanLoop]
                  rw [if_neg (show ('.' : Char) ≠ '/' by decide), if_pos trivial,
                    if_neg hc2, if_pos hg]
                rw [heq]
                exact ih _ _ _ (canonOut_backtrack h)
              · have htwne : (c2 :: rest2).takeWhile (· ≠ '/') =
                    c2 :: rest2.takeWhile (· ≠ '/') := by
                  simp [List.takeWhile_cons, hc2]
                have hseg : goodSeg ('.' :: (c2 :: rest2).takeWhile (· ≠ '/')) := by
                  refine ⟨by simp, ?_, ?_, ?_⟩
                  · intro x hx
                    rcases List.mem_cons.mp hx with rfl | hx
                    · decide
                    · have := List.mem_takeWhile_imp hx
                      simpa using this
                  · rw [htwne]
                    simp
                  · rw [htwne]
                    intro habs
                    injection habs with h1 h2
                    injection h2 with h21 h22
                    exact hg ⟨h21, takeWhile_eq_nil_boundary h22⟩
                have heq : cleanLoop (f + 1) ('.' :: c2 :: rest2) out tr =
                    cleanLoop f ((c2 :: rest2).dropWhile (· ≠ '/'))
                      (appendSeg out ('.' :: (c2 :: rest2).takeWhile (· ≠ '/'))) tr := by
                  simp only [cleanLoop]
                  rw [if_neg (show ('.' : Char) ≠ '/' by decide), if_pos trivial,
                    if_neg hc2, if_neg hg]
                rw [heq]
                exact ih _ _ _ (canonOut_appendSeg h hseg)
        · have hseg : goodSeg (c :: rest1.takeWhile (· ≠ '/')) := by
            refine ⟨by simp, ?_, ?_, ?_⟩
            · intro x hx
              rcases List.mem_cons.mp hx with rfl | hx
              · exact hc
              · have := List.mem_takeWhile_imp hx
                simpa using this
            · intro habs
              injection habs with h1 _
              exact hcd h1
            · intro habs
              injection habs with h1 _
              exact hcd h1
          have heq : cleanLoop (f + 1) (c :: rest1) out tr =
              cleanLoop f (rest1.dropWhile (· ≠ '/'))
                (appendSeg out (c :: rest1.takeWhile (· ≠ '/'))) tr := by
            simp only [cleanLoop]
            rw [if_neg hc, if_neg hcd]
          rw [heq]
          exact ih _ _ _ (canonOut_appendSeg h hseg)

/-- Appending a trailing separator to a nonempty canonical body with no
trailing separator yields a canonical body. -/
theorem canonBody_concat_slash : ∀ {core : List Char}, CanonBody core → core ≠ [] →
    core.getLast? ≠ some '/' → CanonBody (core ++ ['/']) := by
  intro core hb
  induction hb with
  | nil => intro hne _; exact absurd rfl hne
  | single s hs => intro _ _; exact CanonBody.cons _ [] hs CanonBody.nil
  | cons s b hs hbk ih =>
    intro _ hnl
    by_cases hbe : b = []
    · exfalso
      subst hbe
      apply hnl
      rw [show s ++ '/' :: [] = s ++ ['/'] from rfl]
      rw [List.getLast?_append_of_ne_nil s (by simp)]
      rfl
    · have hlast : (s ++ '/' :: b).getLast? = b.getLast? := by
        rw [List.getLast?_append_of_ne_nil s (by simp)]
        exact List.getLast?_append_of_ne_nil ['/'] hbe
      have hbnl : b.getLast? ≠ some '/' := by rw [← hlast]; exact hnl
      have := CanonBody.cons s (b ++ ['/']) hs (ih hbe hbnl)
      simpa [List.append_assoc] using this

/-- Every output of `CleanPath` is canonical: a leading slash followed by a
canonical body. -/
theorem cleanPath_canonical (p : String) :
    ∃ body, (CleanPath p).data = '/' :: body ∧ CanonBody body := by
  cases hp : p.data with
  | nil =>
    have hred : CleanPath p = "/" := by
      unfold CleanPath
      rw [hp]
    rw [hred]
    exact ⟨[], rfl, CanonBody.nil⟩
  | cons c rest0 =>
    have hred : CleanPath p = String.mk
        (if (cleanLoop (c :: rest0).length (if c = '/' then rest0 else c :: rest0) ['/']
              (decide (1 < (c :: rest0).length) && ((c :: rest0).getLast? == some '/'))).2 &&
            decide (1 < (cleanLoop (c :: rest0).length
              (if c = '/' then rest0 else c :: rest0) ['/']
              (decide (1 < (c :: rest0).length) &&
                ((c :: rest0).getLast? == some '/'))).1.length)
         then (cleanLoop (c :: rest0).length (if c = '/' then rest0 else c :: rest0) ['/']
              (decide (1 < (c :: rest0).length) &&
                ((c :: rest0).getLast? == some '/'))).1 ++ ['/']
         else (cleanLoop (c :: rest0).length (if c = '/' then rest0 else c :: rest0) ['/']
              (decide (1 < (c :: rest0).length) &&
                ((c :: rest0).getLast? == some '/'))).1) := by
      unfold CleanPath
      rw [hp]
    obtain ⟨core, hc1, hcb, hnl⟩ := cleanLoop_canonOut (c :: rest0).length
      (if c = '/' then rest0 else c :: rest0) ['/']
      (decide (1 < (c :: rest0).length) && ((c :: rest0).getLast? == some '/'))
      ⟨[], rfl, CanonBody.nil, by simp⟩
    rw [hred]
    by_cases hcond : ((cleanLoop (c :: rest0).length (if c = '/' then rest0 else c :: rest0)
        ['/'] (decide (1 < (c :: rest0).length) && ((c :: rest0).getLast? == some '/'))).2 &&
        decide (1 < (cleanLoop (c :: rest0).length (if c = '/' then rest0 else c :: rest0)
          ['/'] (decide (1 < (c :: rest0).length) &&
            ((c :: rest0).getLast? == some '/'))).1.length)) = true
    · rw [if_pos hcond]
      have hcne : core ≠ [] := by
        rcases Bool.and_eq_true .. |>.mp hcond with ⟨_, h2⟩
        rw [hc1] at h2
        intro habs
        subst habs
        simp at h2
      refine ⟨core ++ ['/'], ?_, canonBody_concat_slash hcb hcne hnl⟩
      rw [hc1]
      rfl
    · rw [if_neg (by simpa using hcond)]
      exact ⟨core, by rw [hc1], hcb⟩

/-- C7: path canonicalisation is idempotent — for every path string `p`,
`CleanPath (CleanPath p) = CleanPath p`. -/
theorem cleanPath_idempotent (p : String) : CleanPath (CleanPath p) = CleanPath p := by
  obtain ⟨body, hdata, hb⟩ := cleanPath_canonical p
  exact cleanPath_canon_id (CleanPath p) body hdata hb
